import Mathlib

/-
Verification of the duplicate-file finder (finddupes.py).

Paths are modelled as strings; PurePath part splitting is modelled by
splitting on the slash character.  All paths handled by the tool are
absolute and normalized (process_file stores str(Path.absolute()), the
CLI arguments are documented as absolute directories), so os.path.normpath
is modelled as the identity and SQL LIKE with a trailing percent sign is
modelled as a string prefix test (directory names are assumed free of
LIKE wildcards).
-/

namespace JmPyDupes

/-- Splits a character list on the slash character, accumulating the
current segment (reversed) in `cur`.  Models the segment decomposition
that pathlib.PurePath performs on a path string. -/
def splitOnSlashAux (cur : List Char) : List Char → List String
  | [] => [String.mk cur.reverse]
  | c :: cs =>
    if c = '/' then String.mk cur.reverse :: splitOnSlashAux [] cs
    else splitOnSlashAux (c :: cur) cs

/-- Models PurePath(s).parts for a normalized path string: an absolute
path contributes a leading "/" part, the remaining segments are the
slash-separated pieces. -/
def pathParts (s : String) : List String :=
  match s.data with
  | [] => []
  | c :: cs =>
    if c = '/' then
      (if cs = [] then ["/"] else "/" :: splitOnSlashAux [] cs)
    else splitOnSlashAux [] s.data

/-- Models len(path_obj.parts) - 1, the folder depth used by the
selection policy (number of parts excluding the file name). -/
def numFolders (s : String) : Nat := (pathParts s).length - 1

/-- Models os.path.normpath.  Every path stored in the index is already
an absolute normalized path, on which normpath is the identity. -/
def normpath (s : String) : String := s

/-- Boolean string prefix test on the underlying character lists.
Models both str.startswith and the SQL LIKE pattern made of the
directory string followed by a percent wildcard. -/
def strPrefixB (d p : String) : Bool := d.data.isPrefixOf p.data

/-- Models PurePath(p).parents (as a list of part lists): every proper
prefix of the parts, stopping at the root part for an anchored path and
at the empty parts (the "." path) for a relative one. -/
def parentsOf (p : List String) : List (List String) :=
  let lo : Nat := if p.head? = some "/" then 1 else 0
  ((List.range p.length).filter (fun k => decide (lo ≤ k))).map (fun k => p.take k)

/-- Models PurePath(p).parent: drop the final part, except that the root
path and the empty path are their own parent. -/
def parentOf (p : List String) : List String :=
  let lo : Nat := if p.head? = some "/" then 1 else 0
  if p.length ≤ lo then p else p.dropLast

/-- Models the membership test from get_duplicates line 357:
preferred_path in path_obj.parents or preferred_path == path_obj.parent. -/
def matchesPreferredDir (prefDir path : String) : Bool :=
  let pd := pathParts prefDir
  let pp := pathParts path
  decide (pd ∈ parentsOf pp) || decide (pd = parentOf pp)

/-- Models the preference-level loop of get_duplicates (lines 353-359):
the index of the first preferred directory that matches, none otherwise.
An empty list plays the role of passing no preferred directories, since
Python treats None and the empty list identically in every truthiness
test the source performs on this argument. -/
def preference_level (prefs : List String) (path : String) : Option Nat :=
  match prefs with
  | [] => none
  | d :: ds =>
    if matchesPreferredDir d path then some 0
    else (preference_level ds path).map (· + 1)

/-- Record built for each group member by get_duplicates (lines 360-366). -/
structure FileInfo where
  path : String
  num_folders : Nat
  path_length : Nat
  hash : String
  preference_level : Option Nat
deriving DecidableEq

/-- Placeholder record: the Python code would raise IndexError where the
model falls back to this value; every theorem below carries the
nonemptiness facts that keep it out of reach. -/
def defaultFileInfo : FileInfo :=
  { path := "", num_folders := 0, path_length := 0, hash := "", preference_level := none }

/-- Builds the dictionary appended at line 360 for one file path. -/
def fileInfoOf (prefs : List String) (hash path : String) : FileInfo :=
  { path := path
    num_folders := numFolders path
    path_length := path.length
    hash := hash
    preference_level := preference_level prefs path }

/-- Models the within-directory re-check of get_duplicates lines 343-345
(and the deletion-time re-check of delete_duplicates lines 594-598). -/
def withinFilterB (within : Option String) (p : String) : Bool :=
  match within with
  | some d => strPrefixB d (normpath p)
  | none => true

/-- Models the file_info construction loop (lines 340-366): paths failing
the within-directory check are skipped, the rest produce records. -/
def buildFileInfo (prefs : List String) (within : Option String) (hash : String)
    (paths : List String) : List FileInfo :=
  paths.filterMap fun p =>
    if withinFilterB within p then some (fileInfoOf prefs hash p) else none

/-- Minimum of a list of naturals; Python min on a nonempty list. -/
def listMin : List Nat → Nat
  | [] => 0
  | x :: xs => xs.foldl Nat.min x

/-- Models select_default_original (lines 404-419): fewest folders first,
then shortest path string, then the first candidate in iteration order. -/
def select_default_original (file_info : List FileInfo) : FileInfo :=
  let min_num_folders := listMin (file_info.map (·.num_folders))
  let candidates := file_info.filter (fun i => i.num_folders == min_num_folders)
  let min_path_length := listMin (candidates.map (·.path_length))
  let original_candidates := candidates.filter (fun i => i.path_length == min_path_length)
  original_candidates.headD defaultFileInfo

/-- Models the original-selection branch of get_duplicates (lines 371-389).
Returns the chosen original together with the no_matching_original flag. -/
def selectOriginal (prefs : List String) (file_info : List FileInfo) : FileInfo × Bool :=
  match prefs with
  | [] => (select_default_original file_info, false)
  | _ :: _ =>
    let preferred_files := file_info.filter (fun i => i.preference_level.isSome)
    if preferred_files.isEmpty then
      (select_default_original file_info, true)
    else
      let min_preference := listMin (preferred_files.filterMap (·.preference_level))
      let highest_pref_files :=
        preferred_files.filter (fun i => i.preference_level == some min_preference)
      let min_num_folders := listMin (highest_pref_files.map (·.num_folders))
      let candidates :=
        highest_pref_files.filter (fun i => i.num_folders == min_num_folders)
      let min_path_length := listMin (candidates.map (·.path_length))
      let original_candidates :=
        candidates.filter (fun i => i.path_length == min_path_length)
      (original_candidates.headD defaultFileInfo, false)

/-- Group dictionary appended at line 394 of get_duplicates. -/
structure DupGroup where
  hash : String
  original : FileInfo
  duplicates : List FileInfo
  no_matching_original : Bool
deriving DecidableEq

/-- All members of a surfaced group: the original and its duplicates. -/
def groupMembers (g : DupGroup) : List FileInfo := g.original :: g.duplicates

/-- First group of a resolution result (used to state concrete
instances); the fallback value never arises in those statements. -/
def headGroup (l : List DupGroup) : DupGroup :=
  l.headD { hash := "", original := defaultFileInfo, duplicates := [],
            no_matching_original := false }

/-- Appends one (hash, path) row to the insertion-ordered hash grouping,
as files_by_hash.setdefault(file_hash, []).append(file_path) does. -/
def addToGroups (groups : List (String × List String)) (h p : String) :
    List (String × List String) :=
  match groups with
  | [] => [(h, [p])]
  | (h', ps) :: rest =>
    if h' = h then (h', ps ++ [p]) :: rest else (h', ps) :: addToGroups rest h p

/-- Models the files_by_hash dictionary (lines 329-331): groups appear in
first-occurrence order of their hash, paths in row order. -/
def filesByHash (files : List (String × String)) : List (String × List String) :=
  files.foldl (fun gs f => addToGroups gs f.1 f.2) []

/-- Models the SQL row selection of get_duplicates (lines 316-326): all
(hash, path) rows, restricted by LIKE prefix when a directory is given. -/
def dbFiltered (db : List (String × String)) (within : Option String) :
    List (String × String) :=
  match within with
  | some d => db.filter (fun r => strPrefixB d r.2)
  | none => db

/-- Models the per-group body of get_duplicates (lines 335-399). -/
def processGroup (prefs : List String) (within : Option String) (hash : String)
    (paths : List String) : Option DupGroup :=
  if paths.length < 2 then none
  else
    let file_info := buildFileInfo prefs within hash paths
    if file_info.length < 2 then none
    else
      let sel := selectOriginal prefs file_info
      let duplicates := file_info.filter (fun i => i.path != sel.1.path)
      some { hash := hash, original := sel.1, duplicates := duplicates,
             no_matching_original := sel.2 }

/-- Models get_duplicates (lines 301-402): the database is a list of
(hash, path) rows; the within-directory argument is assumed to be passed
already absolute and normalized. -/
def get_duplicates (db : List (String × String)) (prefs : List String)
    (within : Option String) : List DupGroup :=
  (filesByHash (dbFiltered db within)).filterMap
    (fun g => processGroup prefs within g.1 g.2)

/-- Spec-side notion used by the scoped-resolution claim: p lies inside
the directory subtree of d exactly when the parts of d are a prefix of
the parts of p. -/
def underDir (d p : String) : Bool := (pathParts d).isPrefixOf (pathParts p)

/-- Row of the files table (create_db_and_table, lines 20-39); the id
column is omitted since no queried behaviour depends on it; timestamps
are abstracted to naturals. -/
structure FileRecord where
  hash : String
  path : String
  size : Nat
  last_modified : Nat
  last_checked : Nat
deriving DecidableEq

/-- Scan result tuple (hash, path, size, last_modified) as produced by
process_file, turned into the row written with last_checked = now. -/
def toRecord (now : Nat) (data : String × String × Nat × Nat) : FileRecord :=
  { hash := data.1, path := data.2.1, size := data.2.2.1,
    last_modified := data.2.2.2, last_checked := now }

/-- Models the UPDATE branch of insert_data: the first row whose path
matches is overwritten in place, the rest are untouched. -/
def updateFirst (db : List FileRecord) (rec : FileRecord) : List FileRecord :=
  match db with
  | [] => []
  | r :: rs => if r.path == rec.path then rec :: rs else r :: updateFirst rs rec

/-- Models insert_data (lines 170-208): update the existing row for the
path when one exists, otherwise append a fresh row. -/
def insert_data (db : List FileRecord) (data : String × String × Nat × Nat)
    (now : Nat) : List FileRecord :=
  let record := toRecord now data
  if db.any (fun r => r.path == record.path) then updateFirst db record
  else db ++ [record]

/-- Models one INSERT OR REPLACE against the UNIQUE(path) constraint:
conflicting rows are deleted and the new row is inserted. -/
def insertOrReplace (db : List FileRecord) (rec : FileRecord) : List FileRecord :=
  db.filter (fun r => r.path != rec.path) ++ [rec]

/-- Models insert_data_batch (lines 210-234): executemany applies the
INSERT OR REPLACE statement to the rows in list order, all stamped with
the same now timestamp. -/
def insert_data_batch (db : List FileRecord) (dataList : List (String × String × Nat × Nat))
    (now : Nat) : List FileRecord :=
  dataList.foldl (fun d x => insertOrReplace d (toRecord now x)) db

/-- Point lookup of the row stored for a path. -/
def findRecord (db : List FileRecord) (p : String) : Option FileRecord :=
  db.find? (fun r => r.path == p)

/-- Number of rows carrying a hash; HAVING COUNT(*) > 1 keeps the hashes
where this is at least 2. -/
def hashCount (db : List FileRecord) (h : String) : Nat :=
  (db.filter (fun r => r.hash == h)).length

/-- Models process_file (lines 67-104).  The disk is a map from path to
the (hash, size, last_modified) data a successful read would produce;
none covers both a missing file and a read error, in which cases the
function produces no record.  Path canonicalization is the identity on
the absolute paths the index stores. -/
def process_file (disk : String → Option (String × Nat × Nat)) (p : String) :
    Option (String × String × Nat × Nat) :=
  match disk p with
  | none => none
  | some (h, sz, lm) => some (h, p, sz, lm)

/-- One iteration of the rescan loop (lines 294-297): a successful
re-read is upserted, anything else is skipped. -/
def rescanStep (disk : String → Option (String × Nat × Nat)) (now : Nat)
    (d : List FileRecord) (hp : String × String) : List FileRecord :=
  match process_file disk hp.2 with
  | some data => insert_data d data now
  | none => d

/-- Models rescan_duplicates (lines 272-299): the (hash, path) rows of
every hash held by at least two rows are re-read and upserted one at a
time.  The result pairs the updated table with the duplicates list the
function returns.  The ORDER BY hash clause only permutes the iteration
order; the rows are kept in table order here, and the theorems below
state only order-insensitive facts. -/
def rescan_duplicates (db : List FileRecord)
    (disk : String → Option (String × Nat × Nat)) (now : Nat) :
    List FileRecord × List (String × String) :=
  let duplicates :=
    (db.filter (fun r => 2 ≤ hashCount db r.hash)).map (fun r => (r.hash, r.path))
  (duplicates.foldl (rescanStep disk now) db, duplicates)

/-- Row of the CSV log written by delete_duplicates. -/
structure LogRow where
  status : String
  path : String
  hash : String
deriving DecidableEq

/-- Observable state that delete_duplicates mutates: the set of files on
disk, whether the output CSV exists, and its data rows.  The CSV header
line is presentational and not modelled. -/
structure World where
  fs : List String
  outExists : Bool
  outRows : List LogRow
deriving DecidableEq

/-- Models the try block around os.remove (lines 600-611): in simulate
mode nothing is touched and the simulated status is reported; otherwise
removal succeeds exactly when the file exists, and any failure is caught
and reported as an error status (the message text is abstracted). -/
def dupStatus (simulate : Bool) (fs : List String) (p : String) :
    List String × String :=
  if simulate then (fs, "deleted (simulated)")
  else if fs.contains p then (fs.erase p, "deleted")
  else (fs, "error - removal failed")

/-- Status logged for the kept original of a group (lines 572-577). -/
def keptStatus (g : DupGroup) : String :=
  if g.no_matching_original then "kept - no matching original" else "kept"

/-- Models the inner duplicate loop of delete_duplicates (lines 589-621):
duplicates outside the within directory are skipped before any action,
the rest get a removal attempt and, when a writer is open, a log row. -/
def processDups (simulate writer : Bool) (within : Option String) (hash : String) :
    List FileInfo → List String → List LogRow → List String × List LogRow
  | [], fs, rows => (fs, rows)
  | d :: ds, fs, rows =>
    if withinFilterB within d.path then
      let res := dupStatus simulate fs d.path
      let rows1 := if writer then rows ++ [{ status := res.2, path := d.path, hash := hash }] else rows
      processDups simulate writer within hash ds res.1 rows1
    else
      processDups simulate writer within hash ds fs rows

/-- Models the group loop of delete_duplicates (lines 567-621): the kept
original is logged first, then the duplicates are handled in order. -/
def runDeletion (simulate writer : Bool) (within : Option String) :
    List DupGroup → List String → List LogRow → List String × List LogRow
  | [], fs, rows => (fs, rows)
  | g :: gs, fs, rows =>
    let rows1 :=
      if writer then rows ++ [{ status := keptStatus g, path := g.original.path, hash := g.hash }]
      else rows
    let st := processDups simulate writer within g.hash g.duplicates fs rows1
    runDeletion simulate writer within gs st.1 st.2

/-- Models delete_duplicates (lines 521-630).  useOutput plays the role
of passing an output_file; opening the file is assumed to succeed, so a
writer is active exactly when an output file was requested.  When the
output file exists and neither overwrite nor append was chosen, the
function reports the error and returns with nothing mutated.  Overwrite
mode (and a fresh file) starts the log empty; append mode keeps the
existing rows. -/
def delete_duplicates (db : List (String × String)) (prefs : List String)
    (within : Option String) (useOutput overwrite append simulate : Bool)
    (w : World) : World :=
  let duplicates_list := get_duplicates db prefs within
  if useOutput && w.outExists && !overwrite && !append then w
  else
    let startRows :=
      if useOutput then (if w.outExists && append then w.outRows else [])
      else w.outRows
    let res := runDeletion simulate useOutput within duplicates_list w.fs startRows
    { fs := res.1, outExists := w.outExists || useOutput, outRows := res.2 }

/-- Paths a log reports with the simulated-deletion status. -/
def simulatedDeletedPaths (rows : List LogRow) : List String :=
  (rows.filter (fun r => r.status == "deleted (simulated)")).map (·.path)

/-- Paths a log reports as actually deleted. -/
def deletedPaths (rows : List LogRow) : List String :=
  (rows.filter (fun r => r.status == "deleted")).map (·.path)

/-- Duplicate paths of one group that pass the deletion-time
within-directory re-check. -/
def filteredDupPaths (within : Option String) (g : DupGroup) : List String :=
  (g.duplicates.filter (fun d => withinFilterB within d.path)).map (·.path)

/-- All duplicate paths a deletion run will attempt to remove, in order. -/
def plannedDeletions (within : Option String) : List DupGroup → List String
  | [] => []
  | g :: gs => filteredDupPaths within g ++ plannedDeletions within gs

/-- Erases the listed paths from the filesystem one after the other. -/
def removeAll (fs : List String) : List String → List String
  | [] => fs
  | p :: ps => removeAll (fs.erase p) ps

/-- Concatenation of the duplicate paths of all groups, the list
duplicates_excl_original accumulates. -/
def allDupPaths : List DupGroup → List String
  | [] => []
  | g :: gs => g.duplicates.map (·.path) ++ allDupPaths gs

/-- Models list_duplicates_excluding_original (lines 421-461).  Line 433
resolves duplicates with the module-global name preferred_directories,
not with the preferred_source_directories parameter; the global binding
is passed here explicitly as globalPreferredDirectories, and none (the
name being unbound, as it is whenever the module is imported rather than
run as a script) makes the call raise NameError, modelled as none.
Output-file writing only prints the returned list and is not modelled. -/
def list_duplicates_excluding_original (db : List (String × String))
    (preferred_source_directories : List String) (within : Option String)
    (globalPreferredDirectories : Option (List String)) : Option (List String) :=
  match globalPreferredDirectories with
  | none => none
  | some preferred_directories =>
    some (allDupPaths (get_duplicates db preferred_directories within))

example : pathParts "/a/bc/f1" = ["/", "a", "bc", "f1"] := by decide
example : numFolders "/a/b/f" = 3 := by decide
example : strPrefixB "/a/b" "/a/bc/f1" = true := by decide
example : underDir "/a/b" "/a/bc/f1" = false := by decide
example : matchesPreferredDir "/p1" "/p1/g" = true := by decide
example : matchesPreferredDir "/p1" "/p2/f" = false := by decide
example : preference_level ["/p1", "/p2"] "/p2/f" = some 1 := by decide

example :
    (get_duplicates [("h", "/a/f"), ("h", "/b/f")] [] none).map
      (fun g => (groupMembers g).map (·.path)) = [["/a/f", "/b/f"]] := by decide

example :
    insert_data [] ("h", "/p", 1, 2) 3 = [⟨"h", "/p", 1, 2, 3⟩] := by decide

example :
    insert_data_batch [] [("h", "/p", 1, 2), ("h2", "/p", 5, 6)] 3 =
      [⟨"h2", "/p", 5, 6, 3⟩] := by decide

example :
    (delete_duplicates [("h", "/a/f"), ("h", "/b/f")] [] none true false false true
      ⟨["/a/f", "/b/f"], false, []⟩).fs = ["/a/f", "/b/f"] := by decide

example :
    (delete_duplicates [("h", "/a/f"), ("h", "/b/f")] [] none true false false false
      ⟨["/a/f", "/b/f"], false, []⟩).fs = ["/a/f"] := by decide

example :
    (delete_duplicates [("h", "/a/f"), ("h", "/b/f")] [] none true false false false
      ⟨["/a/f", "/b/f"], false, []⟩).outRows =
    [⟨"kept", "/a/f", "h"⟩, ⟨"deleted", "/b/f", "h"⟩] := by decide

example :
    (rescan_duplicates [⟨"h", "/a/f", 1, 1, 1⟩, ⟨"h", "/b/f", 1, 1, 1⟩]
      (fun p => if p = "/a/f" then some ("h2", 7, 8) else none) 9).1 =
    [⟨"h2", "/a/f", 7, 8, 9⟩, ⟨"h", "/b/f", 1, 1, 1⟩] := by decide

example :
    list_duplicates_excluding_original [("h", "/aa/f1"), ("h", "/b/f2")]
      ["/aa"] none (some []) = some ["/aa/f1"] := by decide

example :
    allDupPaths (get_duplicates [("h", "/aa/f1"), ("h", "/b/f2")] ["/aa"] none) =
      ["/b/f2"] := by decide

/-! Basic lemmas about the minimum of a list of naturals. -/

lemma foldl_min_mem (xs : List Nat) (x : Nat) : xs.foldl Nat.min x ∈ x :: xs := by
  induction xs generalizing x with
  | nil => simp
  | cons y ys ih =>
    have h := ih (Nat.min x y)
    have hminor : Nat.min x y = x ∨ Nat.min x y = y := by
      unfold Nat.min
      omega
    simp only [List.foldl_cons]
    rcases List.mem_cons.mp h with h1 | h1
    · rw [h1]
      rcases hminor with h2 | h2 <;> rw [h2] <;> simp
    · simp only [List.mem_cons]
      right; right; exact h1

lemma foldl_min_le (xs : List Nat) (x : Nat) : ∀ a ∈ x :: xs, xs.foldl Nat.min x ≤ a := by
  induction xs generalizing x with
  | nil =>
    intro a ha
    simp at ha
    simp [ha]
  | cons y ys ih =>
    intro a ha
    have hhead : ys.foldl Nat.min (Nat.min x y) ≤ Nat.min x y :=
      ih (Nat.min x y) (Nat.min x y) (List.mem_cons_self _ _)
    rcases List.mem_cons.mp ha with h1 | h1
    · subst h1
      exact le_trans hhead (Nat.min_le_left _ _)
    · rcases List.mem_cons.mp h1 with h2 | h2
      · subst h2
        exact le_trans hhead (Nat.min_le_right _ _)
      · exact ih (Nat.min x y) a (List.mem_cons_of_mem _ h2)

lemma listMin_mem {l : List Nat} (h : l ≠ []) : listMin l ∈ l := by
  cases l with
  | nil => exact absurd rfl h
  | cons x xs => exact foldl_min_mem xs x

lemma listMin_le {l : List Nat} {a : Nat} (ha : a ∈ l) : listMin l ≤ a := by
  cases l with
  | nil => simp at ha
  | cons x xs => exact foldl_min_le xs x a ha

lemma headD_mem {α} {l : List α} (d : α) (h : l ≠ []) : l.headD d ∈ l := by
  cases l with
  | nil => exact absurd rfl h
  | cons x xs => simp

/-! Lemmas about the min-then-filter selection pattern shared by
select_default_original and the preferred branch of selectOriginal. -/

lemma minFilter_ne_nil {α} (f : α → Nat) (l : List α) (hl : l ≠ []) :
    l.filter (fun i => f i == listMin (l.map f)) ≠ [] := by
  have hmap : l.map f ≠ [] := by
    cases l with
    | nil => exact absurd rfl hl
    | cons x xs => simp
  have hmem : listMin (l.map f) ∈ l.map f := listMin_mem hmap
  rcases List.mem_map.mp hmem with ⟨a, ha, hfa⟩
  exact List.ne_nil_of_mem (List.mem_filter.mpr ⟨ha, by simp [hfa]⟩)

lemma mem_minFilter {α} {f : α → Nat} {l : List α} {i : α}
    (h : i ∈ l.filter (fun i => f i == listMin (l.map f))) :
    i ∈ l ∧ f i = listMin (l.map f) := by
  have := List.mem_filter.mp h
  exact ⟨this.1, by simpa using this.2⟩

lemma minFilter_le {α} {f : α → Nat} {l : List α} {i : α}
    (h : i ∈ l.filter (fun i => f i == listMin (l.map f))) :
    ∀ j ∈ l, f i ≤ f j := by
  intro j hj
  rw [(mem_minFilter h).2]
  exact listMin_le (List.mem_map_of_mem f hj)

/-- First selection stage of select_default_original: members with the
fewest folders. -/
@[reducible] def sdoC1 (fi : List FileInfo) : List FileInfo :=
  fi.filter (fun i => i.num_folders == listMin (fi.map (·.num_folders)))

/-- Second selection stage of select_default_original: among those, the
members with the shortest path. -/
@[reducible] def sdoC2 (fi : List FileInfo) : List FileInfo :=
  (sdoC1 fi).filter (fun i => i.path_length == listMin ((sdoC1 fi).map (·.path_length)))

lemma select_default_original_eq (fi : List FileInfo) :
    select_default_original fi = (sdoC2 fi).headD defaultFileInfo := rfl

/-- Characterization of select_default_original: the result is a member
of a nonempty input, has minimal folder count, and among members of that
folder count has minimal path length. -/
lemma select_default_original_spec (fi : List FileInfo) (h : fi ≠ []) :
    select_default_original fi ∈ fi ∧
    (∀ m ∈ fi, (select_default_original fi).num_folders ≤ m.num_folders) ∧
    (∀ m ∈ fi, m.num_folders = (select_default_original fi).num_folders →
      (select_default_original fi).path_length ≤ m.path_length) := by
  rw [select_default_original_eq]
  have hc1ne : sdoC1 fi ≠ [] := minFilter_ne_nil (·.num_folders) fi h
  have hc2ne : sdoC2 fi ≠ [] := minFilter_ne_nil (·.path_length) (sdoC1 fi) hc1ne
  have hsel : (sdoC2 fi).headD defaultFileInfo ∈ sdoC2 fi := headD_mem _ hc2ne
  have hselc1 : (sdoC2 fi).headD defaultFileInfo ∈ sdoC1 fi := (mem_minFilter hsel).1
  have hselfi : (sdoC2 fi).headD defaultFileInfo ∈ fi := (mem_minFilter hselc1).1
  refine ⟨hselfi, ?_, ?_⟩
  · intro m hm
    exact minFilter_le hselc1 m hm
  · intro m hm hnf
    have hmc1 : m ∈ sdoC1 fi := by
      refine List.mem_filter.mpr ⟨hm, ?_⟩
      have h2 := (mem_minFilter hselc1).2
      simp only [hnf, h2, beq_iff_eq]
    exact minFilter_le hsel m hmc1

/-- Members carrying a preference level (the preferred_files list). -/
@[reducible] def soPref (fi : List FileInfo) : List FileInfo :=
  fi.filter (fun i => i.preference_level.isSome)

/-- Members whose preference level is the best one present. -/
@[reducible] def soHi (fi : List FileInfo) : List FileInfo :=
  (soPref fi).filter
    (fun i => i.preference_level == some (listMin ((soPref fi).filterMap (·.preference_level))))

/-- Folder-count stage of the preferred selection. -/
@[reducible] def soC1 (fi : List FileInfo) : List FileInfo :=
  (soHi fi).filter (fun i => i.num_folders == listMin ((soHi fi).map (·.num_folders)))

/-- Path-length stage of the preferred selection. -/
@[reducible] def soC2 (fi : List FileInfo) : List FileInfo :=
  (soC1 fi).filter (fun i => i.path_length == listMin ((soC1 fi).map (·.path_length)))

lemma selectOriginal_eq_cons (d : String) (ds : List String) (fi : List FileInfo) :
    selectOriginal (d :: ds) fi =
      if (soPref fi).isEmpty then (select_default_original fi, true)
      else ((soC2 fi).headD defaultFileInfo, false) := rfl

lemma soPref_filterMap_ne_nil (fi : List FileInfo) (h : soPref fi ≠ []) :
    (soPref fi).filterMap (·.preference_level) ≠ [] := by
  cases hpx : soPref fi with
  | nil => exact absurd hpx h
  | cons a as =>
    have ha : a ∈ soPref fi := by rw [hpx]; exact List.mem_cons_self _ _
    have hsome : a.preference_level.isSome := by
      have := List.mem_filter.mp ha
      simpa using this.2
    rcases Option.isSome_iff_exists.mp hsome with ⟨v, hv⟩
    simp [List.filterMap_cons, hv]

lemma soHi_ne_nil (fi : List FileInfo) (h : soPref fi ≠ []) : soHi fi ≠ [] := by
  have hfm := soPref_filterMap_ne_nil fi h
  have hmm := listMin_mem hfm
  rcases List.mem_filterMap.mp hmm with ⟨a, ha, hpl⟩
  exact List.ne_nil_of_mem (List.mem_filter.mpr ⟨ha, by simp [hpl]⟩)

lemma soC2_headD_mem (fi : List FileInfo) (h : soPref fi ≠ []) :
    (soC2 fi).headD defaultFileInfo ∈ soC2 fi := by
  have hc1ne : soC1 fi ≠ [] := minFilter_ne_nil (·.num_folders) (soHi fi) (soHi_ne_nil fi h)
  have hc2ne : soC2 fi ≠ [] := minFilter_ne_nil (·.path_length) (soC1 fi) hc1ne
  exact headD_mem _ hc2ne

lemma soC2_sub_soHi {fi : List FileInfo} {m : FileInfo} (hm : m ∈ soC2 fi) : m ∈ soHi fi :=
  (mem_minFilter (mem_minFilter hm).1).1

lemma soHi_sub_fi {fi : List FileInfo} {m : FileInfo} (hm : m ∈ soHi fi) : m ∈ fi :=
  (List.mem_filter.mp (List.mem_filter.mp hm).1).1

/-- The selected original always belongs to a nonempty member list. -/
lemma selectOriginal_fst_mem (prefs : List String) (fi : List FileInfo)
    (h : fi ≠ []) : (selectOriginal prefs fi).1 ∈ fi := by
  cases prefs with
  | nil => exact (select_default_original_spec fi h).1
  | cons d ds =>
    rw [selectOriginal_eq_cons]
    by_cases hempty : (soPref fi).isEmpty
    · rw [if_pos hempty]
      exact (select_default_original_spec fi h).1
    · rw [if_neg hempty]
      have hpfne : soPref fi ≠ [] := by
        intro hx
        rw [hx] at hempty
        simp at hempty
      exact soHi_sub_fi (soC2_sub_soHi (soC2_headD_mem fi hpfne))

/-- With a nonempty preference list and at least one ranked member, the
flag is false and the selected original carries the minimal preference
level present among the members. -/
lemma selectOriginal_rank_min (d : String) (ds : List String) (fi : List FileInfo)
    (m0 : FileInfo) (hm0 : m0 ∈ fi) (hm0some : m0.preference_level.isSome) :
    (selectOriginal (d :: ds) fi).2 = false ∧
    ∃ rmin, (selectOriginal (d :: ds) fi).1.preference_level = some rmin ∧
      ∀ m ∈ fi, ∀ r, m.preference_level = some r → rmin ≤ r := by
  have hm0pf : m0 ∈ soPref fi := List.mem_filter.mpr ⟨hm0, by simpa using hm0some⟩
  have hpfne : soPref fi ≠ [] := List.ne_nil_of_mem hm0pf
  have hempty : (soPref fi).isEmpty = false := by
    cases hx : soPref fi with
    | nil => exact absurd hx hpfne
    | cons a as => rfl
  rw [selectOriginal_eq_cons, if_neg (by simp [hempty])]
  refine ⟨rfl, listMin ((soPref fi).filterMap (·.preference_level)), ?_, ?_⟩
  · have hmem := soC2_sub_soHi (soC2_headD_mem fi hpfne)
    have := (List.mem_filter.mp hmem).2
    simpa using this
  · intro m hm r hr
    have hmpf : m ∈ soPref fi := List.mem_filter.mpr ⟨hm, by simp [hr]⟩
    have : r ∈ (soPref fi).filterMap (·.preference_level) :=
      List.mem_filterMap.mpr ⟨m, hmpf, hr⟩
    exact listMin_le this

/-- Concatenation of the path lists of a hash grouping. -/
def groupsPaths : List (String × List String) → List String
  | [] => []
  | g :: gs => g.2 ++ groupsPaths gs

lemma addToGroups_paths_perm (gs : List (String × List String)) (h p : String) :
    List.Perm (groupsPaths (addToGroups gs h p)) (groupsPaths gs ++ [p]) := by
  induction gs with
  | nil =>
    simp only [addToGroups, groupsPaths, List.append_nil, List.nil_append]
    exact List.Perm.refl _
  | cons g rest ih =>
    obtain ⟨h', ps⟩ := g
    by_cases hh : h' = h
    · simp only [addToGroups, if_pos hh, groupsPaths]
      rw [List.append_assoc ps [p] (groupsPaths rest),
        List.append_assoc ps (groupsPaths rest) [p]]
      exact List.Perm.append_left ps List.perm_append_comm
    · simp only [addToGroups, if_neg hh, groupsPaths]
      rw [List.append_assoc ps (groupsPaths rest) [p]]
      exact List.Perm.append_left ps ih

lemma filesByHash_go_paths_perm (files : List (String × String))
    (acc : List (String × List String)) :
    List.Perm (groupsPaths (files.foldl (fun gs f => addToGroups gs f.1 f.2) acc))
      (groupsPaths acc ++ files.map (·.2)) := by
  induction files generalizing acc with
  | nil =>
    simp only [List.foldl_nil, List.map_nil, List.append_nil]
    exact List.Perm.refl _
  | cons f fs ih =>
    simp only [List.foldl_cons, List.map_cons]
    have h1 := ih (addToGroups acc f.1 f.2)
    have h2 := (addToGroups_paths_perm acc f.1 f.2).append_right (fs.map (·.2))
    have h3 : (groupsPaths acc ++ [f.2]) ++ fs.map (·.2) =
        groupsPaths acc ++ f.2 :: fs.map (·.2) := by
      rw [List.append_assoc]
      rfl
    rw [h3] at h2
    exact h1.trans h2

lemma filesByHash_paths_perm (files : List (String × String)) :
    List.Perm (groupsPaths (filesByHash files)) (files.map (·.2)) := by
  have h1 := filesByHash_go_paths_perm files []
  simpa [filesByHash, groupsPaths] using h1

lemma mem_groups_sublist {gs : List (String × List String)} {h : String}
    {ps : List String} (hmem : (h, ps) ∈ gs) : ps.Sublist (groupsPaths gs) := by
  induction gs with
  | nil => simp at hmem
  | cons g rest ih =>
    rcases List.mem_cons.mp hmem with h1 | h1
    · rw [← h1]
      exact List.sublist_append_left ps (groupsPaths rest)
    · exact (ih h1).trans (List.sublist_append_right g.2 (groupsPaths rest))

lemma filesByHash_group_nodup {files : List (String × String)}
    (hnd : (files.map (·.2)).Nodup) {h : String} {ps : List String}
    (hmem : (h, ps) ∈ filesByHash files) : ps.Nodup := by
  have hperm := filesByHash_paths_perm files
  have hall : (groupsPaths (filesByHash files)).Nodup := hperm.nodup_iff.mpr hnd
  exact (mem_groups_sublist hmem).nodup hall

lemma dbFiltered_paths_nodup {db : List (String × String)}
    (hnd : (db.map (·.2)).Nodup) (within : Option String) :
    ((dbFiltered db within).map (·.2)).Nodup := by
  cases within with
  | none => exact hnd
  | some d =>
    simp only [dbFiltered]
    exact ((List.filter_sublist db).map (·.2)).nodup hnd

/-! Lemmas about buildFileInfo. -/

lemma buildFileInfo_cons (prefs : List String) (within : Option String) (h p : String)
    (rest : List String) :
    buildFileInfo prefs within h (p :: rest) =
      (if withinFilterB within p then [fileInfoOf prefs h p] else []) ++
        buildFileInfo prefs within h rest := by
  cases hp : withinFilterB within p <;>
    simp [buildFileInfo, List.filterMap_cons, hp]

lemma buildFileInfo_eq (prefs : List String) (within : Option String) (h : String)
    (ps : List String) :
    buildFileInfo prefs within h ps =
      (ps.filter (fun p => withinFilterB within p)).map (fileInfoOf prefs h) := by
  induction ps with
  | nil => rfl
  | cons p rest ih =>
    rw [buildFileInfo_cons, ih, List.filter_cons]
    cases hp : withinFilterB within p <;> simp

lemma buildFileInfo_map_path (prefs : List String) (within : Option String)
    (h : String) (ps : List String) :
    (buildFileInfo prefs within h ps).map (·.path) =
      ps.filter (fun p => withinFilterB within p) := by
  rw [buildFileInfo_eq, List.map_map]
  have : ((·.path) ∘ fileInfoOf prefs h : String → String) = id := by
    funext p
    rfl
  rw [this, List.map_id]

lemma mem_buildFileInfo {prefs : List String} {within : Option String} {h : String}
    {ps : List String} {m : FileInfo} :
    m ∈ buildFileInfo prefs within h ps ↔
      ∃ p ∈ ps, withinFilterB within p = true ∧ m = fileInfoOf prefs h p := by
  rw [buildFileInfo_eq]
  constructor
  · intro hm
    rcases List.mem_map.mp hm with ⟨p, hp, hfp⟩
    have := List.mem_filter.mp hp
    exact ⟨p, this.1, this.2, hfp.symm⟩
  · rintro ⟨p, hp, hpass, rfl⟩
    exact List.mem_map_of_mem _ (List.mem_filter.mpr ⟨hp, hpass⟩)

/-! Inversion lemmas for processGroup and get_duplicates. -/

lemma processGroup_eq_some {prefs : List String} {within : Option String}
    {h : String} {ps : List String} {g : DupGroup}
    (hg : processGroup prefs within h ps = some g) :
    2 ≤ (buildFileInfo prefs within h ps).length ∧
    g.hash = h ∧
    g.original = (selectOriginal prefs (buildFileInfo prefs within h ps)).1 ∧
    g.no_matching_original = (selectOriginal prefs (buildFileInfo prefs within h ps)).2 ∧
    g.duplicates =
      (buildFileInfo prefs within h ps).filter (fun i => i.path != g.original.path) := by
  unfold processGroup at hg
  by_cases h1 : ps.length < 2
  · rw [if_pos h1] at hg
    exact absurd hg (by simp)
  · rw [if_neg h1] at hg
    simp only at hg
    by_cases h2 : (buildFileInfo prefs within h ps).length < 2
    · rw [if_pos h2] at hg
      exact absurd hg (by simp)
    · rw [if_neg h2] at hg
      have hlen := Nat.le_of_not_lt h2
      have hgeq := Option.some_inj.mp hg
      refine ⟨hlen, ?_, ?_, ?_, ?_⟩ <;> rw [← hgeq]

lemma mem_get_duplicates {db : List (String × String)} {prefs : List String}
    {within : Option String} {g : DupGroup} :
    g ∈ get_duplicates db prefs within ↔
      ∃ hp ∈ filesByHash (dbFiltered db within),
        processGroup prefs within hp.1 hp.2 = some g := by
  unfold get_duplicates
  exact List.mem_filterMap

lemma mem_buildFileInfo_pl {prefs : List String} {within : Option String}
    {h : String} {ps : List String} {m : FileInfo}
    (hm : m ∈ buildFileInfo prefs within h ps) :
    m.preference_level = preference_level prefs m.path := by
  rcases mem_buildFileInfo.mp hm with ⟨p, _, _, rfl⟩
  rfl

lemma mem_buildFileInfo_pass {prefs : List String} {within : Option String}
    {h : String} {ps : List String} {m : FileInfo}
    (hm : m ∈ buildFileInfo prefs within h ps) :
    withinFilterB within m.path = true := by
  rcases mem_buildFileInfo.mp hm with ⟨p, _, hpass, rfl⟩
  exact hpass

lemma ne_nil_of_two_le {α} {l : List α} (h : 2 ≤ l.length) : l ≠ [] := by
  intro hx
  rw [hx] at h
  simp at h

/-- Unpacks a surfaced group: the underlying hash-class paths, the
member records, the selected original and the duplicates filter. -/
lemma group_structure {db : List (String × String)} {prefs : List String}
    {within : Option String} {g : DupGroup}
    (hg : g ∈ get_duplicates db prefs within) :
    ∃ hp ∈ filesByHash (dbFiltered db within),
      processGroup prefs within hp.1 hp.2 = some g ∧
      2 ≤ (buildFileInfo prefs within hp.1 hp.2).length ∧
      g.original = (selectOriginal prefs (buildFileInfo prefs within hp.1 hp.2)).1 ∧
      g.no_matching_original = (selectOriginal prefs (buildFileInfo prefs within hp.1 hp.2)).2 ∧
      g.original ∈ buildFileInfo prefs within hp.1 hp.2 ∧
      g.duplicates = (buildFileInfo prefs within hp.1 hp.2).filter
        (fun i => i.path != g.original.path) := by
  rcases mem_get_duplicates.mp hg with ⟨hp, hmem, hpg⟩
  obtain ⟨hlen, _, horig, hflag, hdups⟩ := processGroup_eq_some hpg
  refine ⟨hp, hmem, hpg, hlen, horig, hflag, ?_, hdups⟩
  rw [horig]
  exact selectOriginal_fst_mem _ _ (ne_nil_of_two_le hlen)

lemma groupMembers_sub_fi {prefs : List String} {within : Option String}
    {g : DupGroup} {h : String} {ps : List String}
    (horig : g.original ∈ buildFileInfo prefs within h ps)
    (hdups : g.duplicates = (buildFileInfo prefs within h ps).filter
      (fun i => i.path != g.original.path)) :
    ∀ m ∈ groupMembers g, m ∈ buildFileInfo prefs within h ps := by
  intro m hm
  rcases List.mem_cons.mp hm with h1 | h1
  · rw [h1]; exact horig
  · rw [hdups] at h1
    exact (List.mem_filter.mp h1).1

/-- Nodup paths in the database give nodup member paths in each group. -/
lemma group_fi_paths_nodup {db : List (String × String)} {prefs : List String}
    {within : Option String} {hp : String × List String}
    (hnd : (db.map (·.2)).Nodup)
    (hmem : hp ∈ filesByHash (dbFiltered db within)) :
    ((buildFileInfo prefs within hp.1 hp.2).map (·.path)).Nodup := by
  rw [buildFileInfo_map_path]
  have hps : hp.2.Nodup :=
    filesByHash_group_nodup (dbFiltered_paths_nodup hnd within)
      (show (hp.1, hp.2) ∈ filesByHash (dbFiltered db within) from hmem)
  exact (List.filter_sublist hp.2).nodup hps

lemma length_filter_beq_split {α} (l : List α) (f : α → String) (c : String) :
    (l.filter (fun a => f a == c)).length + (l.filter (fun a => f a != c)).length
      = l.length := by
  induction l with
  | nil => rfl
  | cons a rest ih =>
    by_cases hfa : f a = c
    · simp only [bne] at ih ⊢
      simp [List.filter_cons, hfa]
      omega
    · simp only [bne] at ih ⊢
      simp [List.filter_cons, hfa]
      omega

lemma filter_eq_path_singleton {fi : List FileInfo} {orig : FileInfo}
    (ho : orig ∈ fi) (hnd : (fi.map (·.path)).Nodup) :
    fi.filter (fun i => i.path == orig.path) = [orig] := by
  induction fi with
  | nil => simp at ho
  | cons a rest ih =>
    have hnd' : (rest.map (·.path)).Nodup := (List.nodup_cons.mp hnd).2
    have hanotin : a.path ∉ rest.map (·.path) := (List.nodup_cons.mp hnd).1
    rcases List.mem_cons.mp ho with h1 | h1
    · subst h1
      have hrest : rest.filter (fun i => i.path == orig.path) = [] := by
        rw [List.filter_eq_nil_iff]
        intro b hb
        simp only [beq_iff_eq]
        intro hbeq
        exact hanotin (hbeq ▸ List.mem_map_of_mem (·.path) hb)
      simp [List.filter_cons, hrest]
    · have hne : a.path ≠ orig.path := by
        intro hx
        exact hanotin (hx ▸ List.mem_map_of_mem (·.path) h1)
      have hbe : (a.path == orig.path) = false := by simpa using hne
      simp [List.filter_cons, hbe]
      exact ih h1 hnd'

/-- C4: select_default_original picks a member of minimal folder depth,
breaking depth ties by minimal path-string length; the choice is a pure
function of the input list, hence deterministic for identical input. -/
theorem c4_default_tiebreak (fi : List FileInfo) (hne : fi ≠ []) :
    select_default_original fi ∈ fi ∧
    (∀ m ∈ fi, (select_default_original fi).num_folders ≤ m.num_folders) ∧
    (∀ m ∈ fi, m.num_folders = (select_default_original fi).num_folders →
      (select_default_original fi).path_length ≤ m.path_length) :=
  select_default_original_spec fi hne

/-- Concrete instance of C4: between a depth-3 member and a depth-2
member the depth-2 one is selected (its folder count is minimal). -/
theorem c4_default_tiebreak_witness :
    select_default_original [fileInfoOf [] "h" "/a/b/f", fileInfoOf [] "h" "/a/f"] ∈
      [fileInfoOf [] "h" "/a/b/f", fileInfoOf [] "h" "/a/f"] ∧
    (select_default_original [fileInfoOf [] "h" "/a/b/f", fileInfoOf [] "h" "/a/f"]).num_folders ≤
      (fileInfoOf [] "h" "/a/b/f").num_folders := by
  have h := c4_default_tiebreak [fileInfoOf [] "h" "/a/b/f", fileInfoOf [] "h" "/a/f"]
    (by decide)
  exact ⟨h.1, h.2.1 _ (by decide)⟩

/-- C8: when the requested output file exists and neither overwrite nor
append was chosen, delete_duplicates reports the error and returns with
the world unchanged: nothing is removed and the output is untouched. -/
theorem c8_existing_output_aborts (db : List (String × String)) (prefs : List String)
    (within : Option String) (ov ap sim : Bool) (w : World)
    (hex : w.outExists = true) (hov : ov = false) (hap : ap = false) :
    delete_duplicates db prefs within true ov ap sim w = w := by
  subst hov
  subst hap
  simp [delete_duplicates, hex]

/-- Concrete instance of C8: with an existing log file and no mode flag,
a deletion run leaves the world exactly as it was. -/
theorem c8_existing_output_aborts_witness :
    delete_duplicates [("h", "/a/f"), ("h", "/b/f")] [] none true false false false
      ⟨["/a/f", "/b/f"], true, []⟩ = ⟨["/a/f", "/b/f"], true, []⟩ :=
  c8_existing_output_aborts _ _ _ _ _ _ _ rfl rfl rfl

/-- C5: every surfaced group still has its original plus at least one
duplicate after the within-directory filter, and every surfaced member
passed that filter; a hash class reduced below two members is dropped. -/
theorem c5_group_size (db : List (String × String)) (prefs : List String)
    (within : Option String) (hnd : (db.map (·.2)).Nodup) :
    ∀ g ∈ get_duplicates db prefs within,
      g.duplicates ≠ [] ∧
      2 ≤ (groupMembers g).length ∧
      ∀ m ∈ groupMembers g, withinFilterB within m.path = true := by
  intro g hg
  rcases group_structure hg with ⟨hp, hmem, hpg, hlen, horigsel, hflag, horig, hdups⟩
  have hfind : ((buildFileInfo prefs within hp.1 hp.2).map (·.path)).Nodup :=
    group_fi_paths_nodup hnd hmem
  have hdne : g.duplicates ≠ [] := by
    have hsplit := length_filter_beq_split (buildFileInfo prefs within hp.1 hp.2)
      (·.path) g.original.path
    have hone := filter_eq_path_singleton horig hfind
    have h1 : ((buildFileInfo prefs within hp.1 hp.2).filter
        (fun i => i.path == g.original.path)).length = 1 := by
      rw [hone]
      rfl
    intro hx
    have hzero : ((buildFileInfo prefs within hp.1 hp.2).filter
        (fun i => i.path != g.original.path)).length = 0 := by
      rw [← hdups, hx]
      rfl
    rw [h1, hzero] at hsplit
    omega
  refine ⟨hdne, ?_, ?_⟩
  · have hpos : 0 < g.duplicates.length := List.length_pos.mpr hdne
    simp only [groupMembers, List.length_cons]
    omega
  · intro m hm
    exact mem_buildFileInfo_pass (groupMembers_sub_fi horig hdups m hm)

/-- C3 (amended): with a within-directory argument, every path a
surfaced group mentions, as original or duplicate, starts with the
normalized directory string (a lexical prefix match, the filter the code
actually applies). -/
theorem c3_scoped_prefix (db : List (String × String)) (prefs : List String)
    (d : String) :
    ∀ g ∈ get_duplicates db prefs (some d),
      ∀ m ∈ groupMembers g, strPrefixB d m.path = true := by
  intro g hg m hm
  rcases group_structure hg with ⟨hp, hmem, hpg, hlen, horigsel, hflag, horig, hdups⟩
  have hfi := groupMembers_sub_fi horig hdups m hm
  exact mem_buildFileInfo_pass hfi

/-- Concrete instance of the amended C3. -/
theorem c3_scoped_prefix_witness :
    strPrefixB "/a/b"
      (headGroup (get_duplicates [("h", "/a/bc/f1"), ("h", "/a/bc/f2")] []
        (some "/a/b"))).original.path = true := by
  have h := c3_scoped_prefix [("h", "/a/bc/f1"), ("h", "/a/bc/f2")] [] "/a/b"
  have hg : headGroup (get_duplicates [("h", "/a/bc/f1"), ("h", "/a/bc/f2")] [] (some "/a/b")) ∈
      get_duplicates [("h", "/a/bc/f1"), ("h", "/a/bc/f2")] [] (some "/a/b") := by decide
  have hm : (headGroup (get_duplicates [("h", "/a/bc/f1"), ("h", "/a/bc/f2")] []
        (some "/a/b"))).original ∈
      groupMembers (headGroup (get_duplicates [("h", "/a/bc/f1"), ("h", "/a/bc/f2")] []
        (some "/a/b"))) := by decide
  exact h _ hg _ hm

/-- C3 as stated is false: scoping is a string-prefix match, so with
within-directory /a/b the group made of /a/bc/f1 and /a/bc/f2 is
surfaced although neither path lies inside the subtree of /a/b. -/
theorem c3_scoped_subtree_counterexample :
    ((get_duplicates [("h", "/a/bc/f1"), ("h", "/a/bc/f2")] [] (some "/a/b")).map
      (fun g => (groupMembers g).map (·.path))) = [["/a/bc/f1", "/a/bc/f2"]] ∧
    underDir "/a/b" "/a/bc/f1" = false := by decide

/-- Concrete instance of C5: the single group of a two-member class has
a nonempty duplicates list. -/
theorem c5_group_size_witness :
    (headGroup (get_duplicates [("h", "/a/f"), ("h", "/b/f")] [] none)).duplicates ≠ [] := by
  have h := c5_group_size [("h", "/a/f"), ("h", "/b/f")] [] none (by decide)
  have hg : headGroup (get_duplicates [("h", "/a/f"), ("h", "/b/f")] [] none) ∈
      get_duplicates [("h", "/a/f"), ("h", "/b/f")] [] none := by decide
  exact (h _ hg).1

/-- C10: the selected original is one of the group members, its path is
absent from the duplicates list, and the duplicates are exactly the
remaining members, so the member count is one more than the number of
duplicates. -/
theorem c10_original_membership (db : List (String × String)) (prefs : List String)
    (within : Option String) (hnd : (db.map (·.2)).Nodup) :
    ∀ g ∈ get_duplicates db prefs within,
      ∃ hp ∈ filesByHash (dbFiltered db within),
        processGroup prefs within hp.1 hp.2 = some g ∧
        g.original ∈ buildFileInfo prefs within hp.1 hp.2 ∧
        g.original.path ∉ g.duplicates.map (·.path) ∧
        g.duplicates = (buildFileInfo prefs within hp.1 hp.2).filter
          (fun i => i.path != g.original.path) ∧
        (buildFileInfo prefs within hp.1 hp.2).length = 1 + g.duplicates.length := by
  intro g hg
  rcases group_structure hg with ⟨hp, hmem, hpg, hlen, horigsel, hflag, horig, hdups⟩
  have hfind : ((buildFileInfo prefs within hp.1 hp.2).map (·.path)).Nodup :=
    group_fi_paths_nodup hnd hmem
  refine ⟨hp, hmem, hpg, horig, ?_, hdups, ?_⟩
  · intro hx
    rcases List.mem_map.mp hx with ⟨m, hm, hpath⟩
    rw [hdups] at hm
    have hbne := (List.mem_filter.mp hm).2
    rw [hpath] at hbne
    simp [bne] at hbne
  · have hsplit := length_filter_beq_split (buildFileInfo prefs within hp.1 hp.2)
      (·.path) g.original.path
    have hone := filter_eq_path_singleton horig hfind
    have h1 : ((buildFileInfo prefs within hp.1 hp.2).filter
        (fun i => i.path == g.original.path)).length = 1 := by
      rw [hone]
      rfl
    rw [h1] at hsplit
    rw [hdups]
    omega

/-- Concrete instance of C10: in the group for a two-member class the
original path does not appear among the duplicates. -/
theorem c10_original_membership_witness :
    (headGroup (get_duplicates [("h", "/a/f"), ("h", "/b/f")] [] none)).original.path ∉
      (headGroup (get_duplicates [("h", "/a/f"), ("h", "/b/f")] [] none)).duplicates.map
        (·.path) := by
  have h := c10_original_membership [("h", "/a/f"), ("h", "/b/f")] [] none (by decide)
  have hg : headGroup (get_duplicates [("h", "/a/f"), ("h", "/b/f")] [] none) ∈
      get_duplicates [("h", "/a/f"), ("h", "/b/f")] [] none := by decide
  rcases h _ hg with ⟨hp, hmem, hpg, horig, hnotin, hdups, hcount⟩
  exact hnotin

/-- The preference level is exactly the index of the first preferred
directory matching the path: some i holds iff the list splits into i
non-matching directories, then a matching one. -/
lemma preference_level_some_iff (prefs : List String) (path : String) :
    ∀ i, preference_level prefs path = some i ↔
      ∃ l1 d l2, prefs = l1 ++ d :: l2 ∧ l1.length = i ∧
        matchesPreferredDir d path = true ∧
        ∀ e ∈ l1, matchesPreferredDir e path = false := by
  induction prefs with
  | nil =>
    intro i
    constructor
    · intro h
      simp [preference_level] at h
    · rintro ⟨l1, d, l2, heq, _, _, _⟩
      cases l1 <;> simp at heq
  | cons d0 ds ih =>
    intro i
    by_cases hm : matchesPreferredDir d0 path
    · constructor
      · intro h
        simp only [preference_level, if_pos hm, Option.some_inj] at h
        exact ⟨[], d0, ds, rfl, h, hm, by simp⟩
      · rintro ⟨l1, d, l2, heq, hlen, hd, hall⟩
        cases l1 with
        | nil =>
          simp only [List.nil_append, List.cons.injEq] at heq
          simp only [List.length_nil] at hlen
          rw [preference_level, if_pos hm, ← hlen]
        | cons e l1t =>
          have he : matchesPreferredDir e path = false := hall e (by simp)
          have hed : e = d0 := by
            have h1 : d0 :: ds = e :: (l1t ++ d :: l2) := heq
            exact (List.cons.injEq _ _ _ _ ▸ h1).1.symm
          rw [hed, hm] at he
          exact absurd he (by simp)
    · constructor
      · intro h
        simp only [preference_level, if_neg hm] at h
        rcases Option.map_eq_some'.mp h with ⟨j, hj, hji⟩
        rcases (ih j).mp hj with ⟨l1, d, l2, heq, hlen, hd, hall⟩
        refine ⟨d0 :: l1, d, l2, by rw [heq, List.cons_append], ?_, hd, ?_⟩
        · simp only [List.length_cons, hlen, hji]
        · intro e he
          rcases List.mem_cons.mp he with h1 | h1
          · rw [h1]
            simpa using hm
          · exact hall e h1
      · rintro ⟨l1, d, l2, heq, hlen, hd, hall⟩
        cases l1 with
        | nil =>
          simp only [List.nil_append, List.cons.injEq] at heq
          rw [← heq.1] at hd
          exact absurd hd (by simpa using hm)
        | cons e l1t =>
          have h1 : d0 :: ds = e :: (l1t ++ d :: l2) := heq
          have hds : ds = l1t ++ d :: l2 := (List.cons.injEq _ _ _ _ ▸ h1).2
          simp only [List.length_cons] at hlen
          have hji : preference_level ds path = some l1t.length := by
            apply (ih l1t.length).mpr
            refine ⟨l1t, d, l2, hds, rfl, hd, ?_⟩
            intro e2 he2
            exact hall e2 (List.mem_cons_of_mem _ he2)
          simp only [preference_level, if_neg hm, hji]
          rw [← hlen]
          rfl

/-- C2: in every resolved group, each member carries the preference rank
computed as the index of the first preferred directory that is an
ancestor (or exact parent) of the member path; and when some member has
a rank, the selected original has the minimal rank present, so members
under an earlier preferred directory win over members under later ones
or under none, whatever order the members appear in (the statement holds
for every database ordering). -/
theorem c2_preference_rank (db : List (String × String)) (prefs : List String)
    (within : Option String) (hpne : prefs ≠ []) :
    ∀ g ∈ get_duplicates db prefs within,
      (∀ m ∈ groupMembers g, m.preference_level = preference_level prefs m.path) ∧
      (∀ path i, preference_level prefs path = some i ↔
        ∃ l1 d l2, prefs = l1 ++ d :: l2 ∧ l1.length = i ∧
          matchesPreferredDir d path = true ∧
          ∀ e ∈ l1, matchesPreferredDir e path = false) ∧
      ((∃ m ∈ groupMembers g, m.preference_level.isSome) →
        g.no_matching_original = false ∧
        ∃ rmin, g.original.preference_level = some rmin ∧
          ∀ m ∈ groupMembers g, ∀ r, m.preference_level = some r → rmin ≤ r) := by
  intro g hg
  rcases group_structure hg with ⟨hp, hmem, hpg, hlen, horigsel, hflag, horig, hdups⟩
  have hsub := groupMembers_sub_fi horig hdups
  refine ⟨?_, ?_, ?_⟩
  · intro m hm
    exact mem_buildFileInfo_pl (hsub m hm)
  · intro path i
    exact preference_level_some_iff prefs path i
  · rintro ⟨m0, hm0, hm0some⟩
    cases prefs with
    | nil => exact absurd rfl hpne
    | cons d ds =>
      have hm0fi := hsub m0 hm0
      have hrank := selectOriginal_rank_min d ds (buildFileInfo (d :: ds) within hp.1 hp.2)
        m0 hm0fi hm0some
      constructor
      · rw [hflag]
        exact hrank.1
      · rcases hrank.2 with ⟨rmin, hrmin, hminle⟩
        refine ⟨rmin, by rw [horigsel]; exact hrmin, ?_⟩
        intro m hm r hr
        exact hminle m (hsub m hm) r hr

/-- Concrete instance of C2: with preferred directories [/p1, /p2] and
members under both, the member under /p1 is selected and the flag is
down. -/
theorem c2_preference_rank_witness :
    (headGroup (get_duplicates [("h", "/p2/f"), ("h", "/p1/g")]
      ["/p1", "/p2"] none)).no_matching_original = false ∧
    (headGroup (get_duplicates [("h", "/p2/f"), ("h", "/p1/g")]
      ["/p1", "/p2"] none)).original.path = "/p1/g" := by
  have h := c2_preference_rank [("h", "/p2/f"), ("h", "/p1/g")] ["/p1", "/p2"] none
    (by decide)
  have hg : headGroup (get_duplicates [("h", "/p2/f"), ("h", "/p1/g")] ["/p1", "/p2"] none) ∈
      get_duplicates [("h", "/p2/f"), ("h", "/p1/g")] ["/p1", "/p2"] none := by decide
  have h3 := (h _ hg).2.2
  have hm : (headGroup (get_duplicates [("h", "/p2/f"), ("h", "/p1/g")]
        ["/p1", "/p2"] none)).original ∈
      groupMembers (headGroup (get_duplicates [("h", "/p2/f"), ("h", "/p1/g")]
        ["/p1", "/p2"] none)) := by decide
  have hsome : (headGroup (get_duplicates [("h", "/p2/f"), ("h", "/p1/g")]
      ["/p1", "/p2"] none)).original.preference_level.isSome := by decide
  exact ⟨(h3 ⟨_, hm, hsome⟩).1, by decide⟩

/-! Lemmas about the storage-layer writes (insert_data, insert_data_batch). -/

lemma updateFirst_map_path (db : List FileRecord) (rec : FileRecord) :
    (updateFirst db rec).map (·.path) = db.map (·.path) := by
  induction db with
  | nil => rfl
  | cons r rs ih =>
    by_cases h : r.path = rec.path
    · simp [updateFirst, h]
    · have hb : (r.path == rec.path) = false := by simpa using h
      simp [updateFirst, hb, ih]

lemma updateFirst_cons_pos {r rec : FileRecord} {rs : List FileRecord}
    (h : r.path = rec.path) : updateFirst (r :: rs) rec = rec :: rs := by
  simp [updateFirst, h]

lemma updateFirst_cons_neg {r rec : FileRecord} {rs : List FileRecord}
    (h : ¬r.path = rec.path) : updateFirst (r :: rs) rec = r :: updateFirst rs rec := by
  simp [updateFirst, h]

lemma find?_updateFirst_self {db : List FileRecord} {rec : FileRecord}
    (hex : db.any (fun r => r.path == rec.path) = true) :
    (updateFirst db rec).find? (fun r => r.path == rec.path) = some rec := by
  induction db with
  | nil => simp at hex
  | cons r rs ih =>
    by_cases h : r.path = rec.path
    · rw [updateFirst_cons_pos h]
      exact List.find?_cons_of_pos _ (by simp)
    · have hb : (r.path == rec.path) = false := by simpa using h
      rw [updateFirst_cons_neg h]
      rw [List.find?_cons_of_neg _ (by simp [hb])]
      apply ih
      simp only [List.any_cons, hb, Bool.false_or] at hex
      exact hex

lemma find?_updateFirst_ne {db : List FileRecord} {rec : FileRecord} {q : String}
    (hq : q ≠ rec.path) :
    (updateFirst db rec).find? (fun r => r.path == q) =
      db.find? (fun r => r.path == q) := by
  induction db with
  | nil => rfl
  | cons r rs ih =>
    by_cases h : r.path = rec.path
    · have hbrec : (rec.path == q) = false := by simpa using (Ne.symm hq)
      have hbr : (r.path == q) = false := by
        rw [h]
        exact hbrec
      rw [updateFirst_cons_pos h]
      rw [List.find?_cons_of_neg _ (by simp [hbrec]),
        List.find?_cons_of_neg _ (by simp [hbr])]
    · rw [updateFirst_cons_neg h]
      by_cases hr : r.path = q
      · rw [List.find?_cons_of_pos _ (by simp [hr]),
          List.find?_cons_of_pos _ (by simp [hr])]
      · have hbr : (r.path == q) = false := by simpa using hr
        rw [List.find?_cons_of_neg _ (by simp [hbr]),
          List.find?_cons_of_neg _ (by simp [hbr])]
        exact ih

lemma find?_append_none {α} {l1 l2 : List α} {p : α → Bool}
    (h : l1.find? p = none) : (l1 ++ l2).find? p = l2.find? p := by
  induction l1 with
  | nil => rfl
  | cons a rest ih =>
    have hpa : p a = false := by
      rcases List.find?_eq_none.mp h a (by simp) with h1
      simpa using h1
    rw [List.cons_append, List.find?_cons_of_neg _ (by simp [hpa])]
    apply ih
    rw [List.find?_cons_of_neg _ (by simp [hpa])] at h
    exact h

lemma find?_append_some {α} {l1 l2 : List α} {p : α → Bool} {a : α}
    (h : l1.find? p = some a) : (l1 ++ l2).find? p = some a := by
  induction l1 with
  | nil => simp at h
  | cons b rest ih =>
    by_cases hpb : p b
    · rw [List.find?_cons_of_pos _ hpb] at h
      rw [List.cons_append, List.find?_cons_of_pos _ hpb]
      exact h
    · rw [List.find?_cons_of_neg _ hpb] at h
      rw [List.cons_append, List.find?_cons_of_neg _ hpb]
      exact ih h

lemma insert_data_paths_nodup (db : List FileRecord)
    (data : String × String × Nat × Nat) (now : Nat)
    (hnd : (db.map (·.path)).Nodup) :
    ((insert_data db data now).map (·.path)).Nodup := by
  unfold insert_data
  by_cases hex : db.any (fun r => r.path == (toRecord now data).path) = true
  · rw [if_pos hex, updateFirst_map_path]
    exact hnd
  · rw [if_neg hex, List.map_append]
    rw [List.nodup_append]
    refine ⟨hnd, by simp, ?_⟩
    intro q hq
    simp only [List.map_cons, List.map_nil, List.mem_singleton]
    intro hx
    apply hex
    rcases List.mem_map.mp hq with ⟨r, hr, hrq⟩
    rw [List.any_eq_true]
    exact ⟨r, hr, by simp [hrq, hx]⟩

lemma findRecord_insert_data_self (db : List FileRecord)
    (data : String × String × Nat × Nat) (now : Nat) :
    findRecord (insert_data db data now) (toRecord now data).path =
      some (toRecord now data) := by
  unfold insert_data findRecord
  by_cases hex : db.any (fun r => r.path == (toRecord now data).path) = true
  · rw [if_pos hex]
    exact find?_updateFirst_self hex
  · rw [if_neg hex]
    have hnone : db.find? (fun r => r.path == (toRecord now data).path) = none := by
      rw [List.find?_eq_none]
      intro r hr
      simp only [Bool.not_eq_true]
      by_contra hx
      apply hex
      rw [List.any_eq_true]
      exact ⟨r, hr, by simpa using hx⟩
    rw [find?_append_none hnone]
    exact List.find?_cons_of_pos _ (by simp)

lemma findRecord_insert_data_ne (db : List FileRecord)
    (data : String × String × Nat × Nat) (now : Nat) {q : String}
    (hq : q ≠ (toRecord now data).path) :
    findRecord (insert_data db data now) q = findRecord db q := by
  unfold insert_data findRecord
  by_cases hex : db.any (fun r => r.path == (toRecord now data).path) = true
  · rw [if_pos hex]
    exact find?_updateFirst_ne hq
  · rw [if_neg hex]
    cases hf : db.find? (fun r => r.path == q) with
    | some a => exact find?_append_some hf
    | none =>
      have hb : ((toRecord now data).path == q) = false := by simpa using (Ne.symm hq)
      rw [find?_append_none hf]
      rw [List.find?_cons_of_neg _ (by simp [hb])]
      rfl

lemma insertOrReplace_paths_nodup (db : List FileRecord) (rec : FileRecord)
    (hnd : (db.map (·.path)).Nodup) :
    ((insertOrReplace db rec).map (·.path)).Nodup := by
  unfold insertOrReplace
  rw [List.map_append, List.nodup_append]
  refine ⟨((List.filter_sublist db).map (·.path)).nodup hnd, by simp, ?_⟩
  intro q hq
  simp only [List.map_cons, List.map_nil, List.mem_singleton]
  intro hx
  rcases List.mem_map.mp hq with ⟨r, hr, hrq⟩
  have hkeep := (List.mem_filter.mp hr).2
  rw [hrq, hx] at hkeep
  simp [bne] at hkeep

lemma find?_filter_path_ne (db : List FileRecord) {q c : String} (hqc : q ≠ c) :
    (db.filter (fun r => r.path != c)).find? (fun r => r.path == q) =
      db.find? (fun r => r.path == q) := by
  induction db with
  | nil => rfl
  | cons r rs ih =>
    by_cases hrc : r.path = c
    · have hbr : (r.path == q) = false := by
        rw [hrc]
        simpa using (Ne.symm hqc)
      have hstep : List.filter (fun r => r.path != c) (r :: rs) =
          List.filter (fun r => r.path != c) rs := by
        simp [List.filter_cons, hrc]
      rw [hstep]
      rw [List.find?_cons_of_neg _ (by simp [hbr])]
      exact ih
    · have hstep : List.filter (fun r => r.path != c) (r :: rs) =
          r :: List.filter (fun r => r.path != c) rs := by
        simp [List.filter_cons, bne, hrc]
      rw [hstep]
      by_cases hrq : r.path = q
      · rw [List.find?_cons_of_pos _ (by simp [hrq]),
          List.find?_cons_of_pos _ (by simp [hrq])]
      · have hbr : (r.path == q) = false := by simpa using hrq
        rw [List.find?_cons_of_neg _ (by simp [hbr]),
          List.find?_cons_of_neg _ (by simp [hbr])]
        exact ih

lemma findRecord_insertOrReplace_self (db : List FileRecord) (rec : FileRecord) :
    findRecord (insertOrReplace db rec) rec.path = some rec := by
  unfold insertOrReplace findRecord
  have hnone : (db.filter (fun r => r.path != rec.path)).find?
      (fun r => r.path == rec.path) = none := by
    rw [List.find?_eq_none]
    intro r hr
    have hkeep := (List.mem_filter.mp hr).2
    simp only [Bool.not_eq_true]
    simp only [bne] at hkeep
    simpa using hkeep
  rw [find?_append_none hnone]
  exact List.find?_cons_of_pos _ (by simp)

lemma findRecord_insertOrReplace_ne (db : List FileRecord) (rec : FileRecord)
    {q : String} (hq : q ≠ rec.path) :
    findRecord (insertOrReplace db rec) q = findRecord db q := by
  unfold insertOrReplace findRecord
  cases hf : db.find? (fun r => r.path == q) with
  | some a =>
    have h1 : (db.filter (fun r => r.path != rec.path)).find?
        (fun r => r.path == q) = some a := by
      rw [find?_filter_path_ne db hq]
      exact hf
    have h2 : ((db.filter (fun r => r.path != rec.path)) ++ [rec]).find?
        (fun r => r.path == q) = some a := find?_append_some h1
    exact h2
  | none =>
    have hb : (rec.path == q) = false := by simpa using (Ne.symm hq)
    rw [find?_append_none (by rw [find?_filter_path_ne db hq]; exact hf)]
    rw [List.find?_cons_of_neg _ (by simp [hb])]
    rfl

lemma insert_data_batch_nodup (db : List FileRecord)
    (dataList : List (String × String × Nat × Nat)) (now : Nat)
    (hnd : (db.map (·.path)).Nodup) :
    ((insert_data_batch db dataList now).map (·.path)).Nodup := by
  induction dataList generalizing db with
  | nil => exact hnd
  | cons x xs ih =>
    exact ih _ (insertOrReplace_paths_nodup db (toRecord now x) hnd)

lemma insert_data_batch_append (db : List FileRecord)
    (l : List (String × String × Nat × Nat)) (x : String × String × Nat × Nat)
    (now : Nat) :
    insert_data_batch db (l ++ [x]) now =
      insertOrReplace (insert_data_batch db l now) (toRecord now x) := by
  simp [insert_data_batch, List.foldl_append]

lemma insert_data_batch_last_write (db : List FileRecord)
    (dataList : List (String × String × Nat × Nat)) (now : Nat) :
    ∀ p, (∃ x ∈ dataList, x.2.1 = p) →
      findRecord (insert_data_batch db dataList now) p =
        ((dataList.filter (fun x => x.2.1 == p)).getLast?).map (toRecord now) := by
  induction dataList using List.reverseRecOn with
  | nil =>
    intro p hp
    simp at hp
  | append_singleton l x ih =>
    intro p hp
    rw [insert_data_batch_append]
    by_cases hpx : x.2.1 = p
    · have hself := findRecord_insertOrReplace_self (insert_data_batch db l now)
        (toRecord now x)
      have hpath : (toRecord now x).path = p := hpx
      rw [hpath] at hself
      rw [hself]
      have hfil : (l ++ [x]).filter (fun x => x.2.1 == p) =
          l.filter (fun x => x.2.1 == p) ++ [x] := by
        rw [List.filter_append]
        simp [hpx]
      rw [hfil, List.getLast?_concat]
      rfl
    · have hne : p ≠ (toRecord now x).path := fun hx => hpx hx.symm
      rw [findRecord_insertOrReplace_ne _ _ hne]
      have hfil : (l ++ [x]).filter (fun x => x.2.1 == p) =
          l.filter (fun x => x.2.1 == p) := by
        rw [List.filter_append]
        simp [hpx]
      rw [hfil]
      apply ih
      rcases hp with ⟨y, hy, hyp⟩
      rcases List.mem_append.mp hy with h1 | h1
      · exact ⟨y, h1, hyp⟩
      · rcases List.mem_singleton.mp h1 with rfl
        exact absurd hyp hpx

/-- C7: writes keep at most one row per path, and the row stored for a
written path carries the hash, size and last-modified of the most recent
write: insert_data leaves exactly the new values in place, and a batch
insert resolves repeated paths to the last tuple in the list. -/
theorem c7_unique_path_last_write (db : List FileRecord) (now : Nat)
    (hnd : (db.map (·.path)).Nodup) :
    (∀ data : String × String × Nat × Nat,
      ((insert_data db data now).map (·.path)).Nodup ∧
      findRecord (insert_data db data now) data.2.1 = some (toRecord now data)) ∧
    (∀ dataList : List (String × String × Nat × Nat),
      ((insert_data_batch db dataList now).map (·.path)).Nodup ∧
      ∀ p, (∃ x ∈ dataList, x.2.1 = p) →
        findRecord (insert_data_batch db dataList now) p =
          ((dataList.filter (fun x => x.2.1 == p)).getLast?).map (toRecord now)) := by
  constructor
  · intro data
    exact ⟨insert_data_paths_nodup db data now hnd,
      findRecord_insert_data_self db data now⟩
  · intro dataList
    exact ⟨insert_data_batch_nodup db dataList now hnd,
      insert_data_batch_last_write db dataList now⟩

/-- Concrete instance of C7: a batch writing the same path twice leaves
one row holding the later tuple's values. -/
theorem c7_unique_path_last_write_witness :
    findRecord (insert_data_batch [] [("h", "/p", 1, 2), ("h2", "/p", 5, 6)] 3) "/p" =
      some ⟨"h2", "/p", 5, 6, 3⟩ := by
  have h := (c7_unique_path_last_write [] 3 (by decide)).2
    [("h", "/p", 1, 2), ("h2", "/p", 5, 6)]
  have h2 := h.2 "/p" ⟨("h", "/p", 1, 2), by decide, rfl⟩
  rw [h2]
  decide

/-! Lemmas about rescan_duplicates. -/

lemma findRecord_of_mem_nodup {db : List FileRecord} {r : FileRecord}
    (hr : r ∈ db) (hnd : (db.map (·.path)).Nodup) :
    findRecord db r.path = some r := by
  induction db with
  | nil => simp at hr
  | cons a rest ih =>
    rcases List.mem_cons.mp hr with h1 | h1
    · rw [h1]
      exact List.find?_cons_of_pos _ (by simp)
    · have hne : (a.path == r.path) = false := by
        have hnotin := (List.nodup_cons.mp hnd).1
        have hmm : r.path ∈ rest.map (·.path) := List.mem_map_of_mem (·.path) h1
        have hane : a.path ≠ r.path := by
          intro hx
          rw [← hx] at hmm
          exact hnotin hmm
        simpa using hane
      rw [findRecord, List.find?_cons_of_neg _ (by simp [hne])]
      exact ih h1 (List.nodup_cons.mp hnd).2

lemma rescanStep_find_ne (disk : String → Option (String × Nat × Nat)) (now : Nat)
    (d : List FileRecord) (hp : String × String) {q : String} (hq : hp.2 ≠ q) :
    findRecord (rescanStep disk now d hp) q = findRecord d q := by
  unfold rescanStep process_file
  cases hd : disk hp.2 with
  | none => rfl
  | some v =>
    obtain ⟨h, sz, lm⟩ := v
    exact findRecord_insert_data_ne d (h, hp.2, sz, lm) now (Ne.symm hq)

lemma rescanFold_find_notin (disk : String → Option (String × Nat × Nat)) (now : Nat)
    (l : List (String × String)) (d : List FileRecord) (q : String)
    (hnot : ∀ hp ∈ l, hp.2 ≠ q) :
    findRecord (l.foldl (rescanStep disk now) d) q = findRecord d q := by
  induction l generalizing d with
  | nil => rfl
  | cons hp rest ih =>
    rw [List.foldl_cons]
    rw [ih (rescanStep disk now d hp) (fun x hx => hnot x (List.mem_cons_of_mem _ hx))]
    exact rescanStep_find_ne disk now d hp (hnot hp (List.mem_cons_self _ _))

/-- C6 (amended): rescan_duplicates re-reads every path of every
duplicate group and re-upserts the ones that still exist, stamping the
new hash, size, modification time and last-checked time; a path that no
longer exists on disk is skipped, leaving its stale record in the index
(it is not deleted). -/
theorem c6_rescan_skips_missing (db : List FileRecord)
    (disk : String → Option (String × Nat × Nat)) (now : Nat)
    (hnd : (db.map (·.path)).Nodup) :
    ∀ r ∈ db, 2 ≤ hashCount db r.hash →
      (disk r.path = none →
        findRecord (rescan_duplicates db disk now).1 r.path = some r) ∧
      (∀ h sz lm, disk r.path = some (h, sz, lm) →
        findRecord (rescan_duplicates db disk now).1 r.path =
          some ⟨h, r.path, sz, lm, now⟩) := by
  intro r hr hcount
  have hmemL : (r.hash, r.path) ∈
      (db.filter (fun r => 2 ≤ hashCount db r.hash)).map (fun r => (r.hash, r.path)) :=
    List.mem_map_of_mem _ (List.mem_filter.mpr ⟨hr, by simpa using hcount⟩)
  rcases List.append_of_mem hmemL with ⟨l1, l2, hL⟩
  have hLnd : (((db.filter (fun r => 2 ≤ hashCount db r.hash)).map
      (fun r => (r.hash, r.path))).map (·.2)).Nodup := by
    rw [List.map_map]
    have hcomp : ((·.2) ∘ fun r : FileRecord => (r.hash, r.path)) = (·.path) := by
      funext x
      rfl
    rw [hcomp]
    exact ((List.filter_sublist db).map (·.path)).nodup hnd
  rw [hL] at hLnd
  have hLp : ((l1 ++ (r.hash, r.path) :: l2).map (·.2)) =
      l1.map (·.2) ++ r.path :: l2.map (·.2) := by simp
  rw [hLp] at hLnd
  obtain ⟨hnd1, hnd2, hdisj⟩ := List.nodup_append.mp hLnd
  have hnot1 : ∀ hp ∈ l1, hp.2 ≠ r.path := by
    intro hp hhp hx
    exact hdisj (List.mem_map_of_mem (·.2) hhp) (by rw [hx]; exact List.mem_cons_self _ _)
  have hnot2 : ∀ hp ∈ l2, hp.2 ≠ r.path := by
    intro hp hhp hx
    have hnotin := (List.nodup_cons.mp hnd2).1
    have hmm : hp.2 ∈ l2.map (·.2) := List.mem_map_of_mem (·.2) hhp
    rw [hx] at hmm
    exact hnotin hmm
  have hfold : (rescan_duplicates db disk now).1 =
      l2.foldl (rescanStep disk now)
        (rescanStep disk now (l1.foldl (rescanStep disk now) db) (r.hash, r.path)) := by
    show ((db.filter (fun r => 2 ≤ hashCount db r.hash)).map
        (fun r => (r.hash, r.path))).foldl (rescanStep disk now) db = _
    rw [hL, List.foldl_append, List.foldl_cons]
  have hbase : findRecord (l1.foldl (rescanStep disk now) db) r.path =
      findRecord db r.path := rescanFold_find_notin disk now l1 db r.path hnot1
  constructor
  · intro hnone
    rw [hfold, rescanFold_find_notin disk now l2 _ r.path hnot2]
    have hstep : rescanStep disk now (l1.foldl (rescanStep disk now) db)
        (r.hash, r.path) = l1.foldl (rescanStep disk now) db := by
      unfold rescanStep process_file
      rw [hnone]
    rw [hstep, hbase]
    exact findRecord_of_mem_nodup hr hnd
  · intro h sz lm hsome
    rw [hfold, rescanFold_find_notin disk now l2 _ r.path hnot2]
    have hstep : rescanStep disk now (l1.foldl (rescanStep disk now) db)
        (r.hash, r.path) =
        insert_data (l1.foldl (rescanStep disk now) db) (h, r.path, sz, lm) now := by
      unfold rescanStep process_file
      rw [hsome]
    rw [hstep]
    exact findRecord_insert_data_self _ (h, r.path, sz, lm) now

/-- Concrete instance of the amended C6: the still-existing member is
re-upserted with the fresh read. -/
theorem c6_rescan_skips_missing_witness :
    findRecord (rescan_duplicates [⟨"h", "/a/f", 1, 1, 1⟩, ⟨"h", "/b/f", 1, 1, 1⟩]
      (fun p => if p = "/a/f" then some ("h2", 7, 8) else none) 9).1 "/a/f" =
      some ⟨"h2", "/a/f", 7, 8, 9⟩ := by
  have h := c6_rescan_skips_missing [⟨"h", "/a/f", 1, 1, 1⟩, ⟨"h", "/b/f", 1, 1, 1⟩]
    (fun p => if p = "/a/f" then some ("h2", 7, 8) else none) 9 (by decide)
  exact (h ⟨"h", "/a/f", 1, 1, 1⟩ (by decide) (by decide)).2 "h2" 7 8 (by decide)

/-- C6 as stated is false: the record of a duplicate-group path that no
longer exists on disk survives the rescan unchanged instead of being
deleted from the index (rescan_duplicates only skips it). -/
theorem c6_rescan_missing_kept_counterexample :
    findRecord (rescan_duplicates [⟨"h", "/a/f", 1, 1, 1⟩, ⟨"h", "/b/f", 1, 1, 1⟩]
      (fun p => if p = "/a/f" then some ("h2", 7, 8) else none) 9).1 "/b/f" =
      some ⟨"h", "/b/f", 1, 1, 1⟩ := by decide

/-- C9: list_duplicates_excluding_original ignores its
preferred_source_directories parameter.  With the module-global name
unbound the call fails (models the NameError the test suite triggers);
with the global bound to another value the resolution follows the global,
and the result differs from the one the caller's argument dictates. -/
theorem c9_parameter_ignored :
    list_duplicates_excluding_original [("h", "/aa/f1"), ("h", "/b/f2")]
      ["/aa"] none none = none ∧
    list_duplicates_excluding_original [("h", "/aa/f1"), ("h", "/b/f2")]
      ["/aa"] none (some []) = some ["/aa/f1"] ∧
    allDupPaths (get_duplicates [("h", "/aa/f1"), ("h", "/b/f2")] ["/aa"] none) =
      ["/b/f2"] := by decide

/-! Lemmas about the deletion run of delete_duplicates. -/

/-- Duplicate paths of a member list that pass the deletion-time filter. -/
def dupPathsF (within : Option String) (ds : List FileInfo) : List String :=
  (ds.filter (fun d => withinFilterB within d.path)).map (·.path)

/-- Log rows a simulated run writes for one group's duplicates. -/
def simRows (within : Option String) (h : String) (ds : List FileInfo) : List LogRow :=
  (ds.filter (fun d => withinFilterB within d.path)).map
    (fun d => { status := "deleted (simulated)", path := d.path, hash := h })

/-- Log rows a successful real run writes for one group's duplicates. -/
def realRows (within : Option String) (h : String) (ds : List FileInfo) : List LogRow :=
  (ds.filter (fun d => withinFilterB within d.path)).map
    (fun d => { status := "deleted", path := d.path, hash := h })

/-- Row logged for the kept original of a group. -/
def keptRow (g : DupGroup) : LogRow :=
  { status := keptStatus g, path := g.original.path, hash := g.hash }

/-- Full log of a simulated run. -/
def simLogOf (within : Option String) : List DupGroup → List LogRow
  | [] => []
  | g :: gs => keptRow g :: simRows within g.hash g.duplicates ++ simLogOf within gs

/-- Full log of a real run in which every removal succeeds. -/
def realLogOf (within : Option String) : List DupGroup → List LogRow
  | [] => []
  | g :: gs => keptRow g :: realRows within g.hash g.duplicates ++ realLogOf within gs

lemma processDups_cons_pass (s w : Bool) (within : Option String) (h : String)
    (d : FileInfo) (ds : List FileInfo) (fs : List String) (rows : List LogRow)
    (hp : withinFilterB within d.path = true) :
    processDups s w within h (d :: ds) fs rows =
      processDups s w within h ds (dupStatus s fs d.path).1
        (if w then rows ++ [{ status := (dupStatus s fs d.path).2, path := d.path, hash := h }]
         else rows) := by
  simp [processDups, hp]

lemma processDups_cons_skip (s w : Bool) (within : Option String) (h : String)
    (d : FileInfo) (ds : List FileInfo) (fs : List String) (rows : List LogRow)
    (hp : withinFilterB within d.path = false) :
    processDups s w within h (d :: ds) fs rows = processDups s w within h ds fs rows := by
  simp [processDups, hp]

lemma processDups_sim (within : Option String) (h : String) (ds : List FileInfo)
    (fs : List String) (rows : List LogRow) :
    processDups true true within h ds fs rows =
      (fs, rows ++ simRows within h ds) := by
  induction ds generalizing rows with
  | nil => simp [processDups, simRows]
  | cons d rest ih =>
    by_cases hp : withinFilterB within d.path
    · rw [processDups_cons_pass _ _ _ _ _ _ _ _ hp]
      have hds : dupStatus true fs d.path = (fs, "deleted (simulated)") := rfl
      rw [hds]
      simp only [if_pos]
      rw [ih]
      have hsr : simRows within h (d :: rest) =
          { status := "deleted (simulated)", path := d.path, hash := h } ::
            simRows within h rest := by
        simp [simRows, List.filter_cons, hp]
      rw [hsr, List.append_assoc]
      rfl
    · rw [processDups_cons_skip _ _ _ _ _ _ _ _ (by simpa using hp), ih]
      have hsr : simRows within h (d :: rest) = simRows within h rest := by
        simp [simRows, List.filter_cons, hp]
      rw [hsr]

lemma processDups_real (within : Option String) (h : String) (ds : List FileInfo)
    (fs : List String) (rows : List LogRow)
    (hsub : ∀ p ∈ dupPathsF within ds, p ∈ fs)
    (hnd : (dupPathsF within ds).Nodup) (hfs : fs.Nodup) :
    processDups false true within h ds fs rows =
      (removeAll fs (dupPathsF within ds), rows ++ realRows within h ds) := by
  induction ds generalizing fs rows with
  | nil => simp [processDups, dupPathsF, removeAll, realRows]
  | cons d rest ih =>
    by_cases hp : withinFilterB within d.path
    · have hdp : dupPathsF within (d :: rest) = d.path :: dupPathsF within rest := by
        simp [dupPathsF, List.filter_cons, hp]
      have hrr : realRows within h (d :: rest) =
          { status := "deleted", path := d.path, hash := h } :: realRows within h rest := by
        simp [realRows, List.filter_cons, hp]
      have hmem : d.path ∈ fs := hsub d.path (by rw [hdp]; exact List.mem_cons_self _ _)
      have hds : dupStatus false fs d.path = (fs.erase d.path, "deleted") := by
        unfold dupStatus
        simp [hmem]
      rw [processDups_cons_pass _ _ _ _ _ _ _ _ hp, hds]
      simp only [if_pos]
      rw [hdp] at hnd
      have hnotin : d.path ∉ dupPathsF within rest := (List.nodup_cons.mp hnd).1
      rw [ih (fs.erase d.path) _ ?hsub (List.nodup_cons.mp hnd).2 (hfs.erase d.path)]
      case hsub =>
        intro p hprest
        have hpfs : p ∈ fs := hsub p (by rw [hdp]; exact List.mem_cons_of_mem _ hprest)
        have hpne : p ≠ d.path := by
          intro hx
          rw [hx] at hprest
          exact hnotin hprest
        exact (List.mem_erase_of_ne hpne).mpr hpfs
      rw [hdp, hrr]
      have hra : removeAll fs (d.path :: dupPathsF within rest) =
          removeAll (fs.erase d.path) (dupPathsF within rest) := rfl
      rw [hra, List.append_assoc]
      rfl
    · have hpf : withinFilterB within d.path = false := by simpa using hp
      have hdp : dupPathsF within (d :: rest) = dupPathsF within rest := by
        simp [dupPathsF, List.filter_cons, hpf]
      have hrr : realRows within h (d :: rest) = realRows within h rest := by
        simp [realRows, List.filter_cons, hpf]
      rw [processDups_cons_skip _ _ _ _ _ _ _ _ hpf]
      rw [hdp] at hsub hnd
      rw [ih fs rows hsub hnd hfs, hdp, hrr]

lemma runDeletion_sim (within : Option String) (gs : List DupGroup)
    (fs : List String) (rows : List LogRow) :
    runDeletion true true within gs fs rows = (fs, rows ++ simLogOf within gs) := by
  induction gs generalizing rows with
  | nil => simp [runDeletion, simLogOf]
  | cons g rest ih =>
    show runDeletion true true within rest
        (processDups true true within g.hash g.duplicates fs (rows ++ [keptRow g])).1
        (processDups true true within g.hash g.duplicates fs (rows ++ [keptRow g])).2 = _
    rw [processDups_sim]
    rw [ih]
    have : simLogOf within (g :: rest) =
        keptRow g :: simRows within g.hash g.duplicates ++ simLogOf within rest := rfl
    rw [this, List.append_assoc, List.append_assoc]
    rfl

lemma removeAll_nodup (fs : List String) (l : List String) (hfs : fs.Nodup) :
    (removeAll fs l).Nodup := by
  induction l generalizing fs with
  | nil => exact hfs
  | cons p ps ih => exact ih (fs.erase p) (hfs.erase p)

lemma mem_removeAll {q : String} (fs l : List String) (hfs : fs.Nodup) :
    q ∈ removeAll fs l ↔ (q ∈ fs ∧ q ∉ l) := by
  induction l generalizing fs with
  | nil => simp [removeAll]
  | cons p ps ih =>
    show q ∈ removeAll (fs.erase p) ps ↔ _
    rw [ih (fs.erase p) (hfs.erase p)]
    constructor
    · rintro ⟨h1, h2⟩
      have h3 := (List.Nodup.mem_erase_iff hfs).mp h1
      refine ⟨h3.2, ?_⟩
      intro hx
      rcases List.mem_cons.mp hx with h4 | h4
      · exact h3.1 h4
      · exact h2 h4
    · rintro ⟨h1, h2⟩
      have hqp : q ≠ p := by
        intro hx
        exact h2 (by rw [hx]; exact List.mem_cons_self _ _)
      have hqps : q ∉ ps := fun hx => h2 (List.mem_cons_of_mem _ hx)
      exact ⟨(List.Nodup.mem_erase_iff hfs).mpr ⟨hqp, h1⟩, hqps⟩

lemma removeAll_append (fs : List String) (l1 l2 : List String) :
    removeAll fs (l1 ++ l2) = removeAll (removeAll fs l1) l2 := by
  induction l1 generalizing fs with
  | nil => rfl
  | cons p ps ih =>
    show removeAll (fs.erase p) (ps ++ l2) = _
    exact ih (fs.erase p)

lemma runDeletion_real (within : Option String) (gs : List DupGroup)
    (fs : List String) (rows : List LogRow)
    (hsub : ∀ p ∈ plannedDeletions within gs, p ∈ fs)
    (hnd : (plannedDeletions within gs).Nodup) (hfs : fs.Nodup) :
    runDeletion false true within gs fs rows =
      (removeAll fs (plannedDeletions within gs), rows ++ realLogOf within gs) := by
  induction gs generalizing fs rows with
  | nil => simp [runDeletion, plannedDeletions, removeAll, realLogOf]
  | cons g rest ih =>
    have hplan : plannedDeletions within (g :: rest) =
        dupPathsF within g.duplicates ++ plannedDeletions within rest := rfl
    rw [hplan] at hsub hnd
    obtain ⟨hnd1, hnd2, hdisj⟩ := List.nodup_append.mp hnd
    have hsub1 : ∀ p ∈ dupPathsF within g.duplicates, p ∈ fs := by
      intro p hpp
      exact hsub p (List.mem_append.mpr (Or.inl hpp))
    show runDeletion false true within rest
        (processDups false true within g.hash g.duplicates fs (rows ++ [keptRow g])).1
        (processDups false true within g.hash g.duplicates fs (rows ++ [keptRow g])).2 = _
    rw [processDups_real within g.hash g.duplicates fs _ hsub1 hnd1 hfs]
    have hfs1 : (removeAll fs (dupPathsF within g.duplicates)).Nodup :=
      removeAll_nodup fs _ hfs
    have hsub2 : ∀ p ∈ plannedDeletions within rest,
        p ∈ removeAll fs (dupPathsF within g.duplicates) := by
      intro p hprest
      have hpfs : p ∈ fs := hsub p (List.mem_append.mpr (Or.inr hprest))
      have hpnot : p ∉ dupPathsF within g.duplicates := fun hx => hdisj hx hprest
      exact (mem_removeAll fs _ hfs).mpr ⟨hpfs, hpnot⟩
    rw [ih _ _ hsub2 hnd2 hfs1]
    rw [hplan, removeAll_append]
    have hlog : realLogOf within (g :: rest) =
        keptRow g :: realRows within g.hash g.duplicates ++ realLogOf within rest := rfl
    rw [hlog, List.append_assoc, List.append_assoc]
    rfl

lemma sdp_append (a b : List LogRow) :
    simulatedDeletedPaths (a ++ b) =
      simulatedDeletedPaths a ++ simulatedDeletedPaths b := by
  simp [simulatedDeletedPaths, List.filter_append]

lemma dp_append (a b : List LogRow) :
    deletedPaths (a ++ b) = deletedPaths a ++ deletedPaths b := by
  simp [deletedPaths, List.filter_append]

lemma keptStatus_ne_sim (g : DupGroup) :
    (keptStatus g == "deleted (simulated)") = false := by
  cases hgf : g.no_matching_original <;> simp [keptStatus, hgf]

lemma keptStatus_ne_del (g : DupGroup) : (keptStatus g == "deleted") = false := by
  cases hgf : g.no_matching_original <;> simp [keptStatus, hgf]

lemma sdp_cons_kept (g : DupGroup) (t : List LogRow) :
    simulatedDeletedPaths (keptRow g :: t) = simulatedDeletedPaths t := by
  simp [simulatedDeletedPaths, List.filter_cons, keptRow, keptStatus_ne_sim g]

lemma dp_cons_kept (g : DupGroup) (t : List LogRow) :
    deletedPaths (keptRow g :: t) = deletedPaths t := by
  simp [deletedPaths, List.filter_cons, keptRow, keptStatus_ne_del g]

lemma sdp_simRows (within : Option String) (h : String) (ds : List FileInfo) :
    simulatedDeletedPaths (simRows within h ds) = dupPathsF within ds := by
  unfold simRows dupPathsF
  induction ds.filter (fun d => withinFilterB within d.path) with
  | nil => rfl
  | cons d rest ih =>
    simp only [simulatedDeletedPaths] at ih
    simp [simulatedDeletedPaths, List.filter_cons]
    exact ih

lemma dp_realRows (within : Option String) (h : String) (ds : List FileInfo) :
    deletedPaths (realRows within h ds) = dupPathsF within ds := by
  unfold realRows dupPathsF
  induction ds.filter (fun d => withinFilterB within d.path) with
  | nil => rfl
  | cons d rest ih =>
    simp only [deletedPaths] at ih
    simp [deletedPaths, List.filter_cons]
    exact ih

lemma sdp_simLog (within : Option String) (gs : List DupGroup) :
    simulatedDeletedPaths (simLogOf within gs) = plannedDeletions within gs := by
  induction gs with
  | nil => rfl
  | cons g rest ih =>
    show simulatedDeletedPaths (keptRow g ::
      simRows within g.hash g.duplicates ++ simLogOf within rest) = _
    rw [sdp_append, sdp_cons_kept g (simRows within g.hash g.duplicates),
      sdp_simRows, ih]
    rfl

lemma dp_realLog (within : Option String) (gs : List DupGroup) :
    deletedPaths (realLogOf within gs) = plannedDeletions within gs := by
  induction gs with
  | nil => rfl
  | cons g rest ih =>
    show deletedPaths (keptRow g ::
      realRows within g.hash g.duplicates ++ realLogOf within rest) = _
    rw [dp_append, dp_cons_kept g (realRows within g.hash g.duplicates),
      dp_realRows, ih]
    rfl

lemma delete_duplicates_run (db : List (String × String)) (prefs : List String)
    (within : Option String) (sim : Bool) (w : World) (hout : w.outExists = false) :
    delete_duplicates db prefs within true false false sim w =
      { fs := (runDeletion sim true within (get_duplicates db prefs within) w.fs []).1,
        outExists := true,
        outRows := (runDeletion sim true within (get_duplicates db prefs within) w.fs []).2 } := by
  unfold delete_duplicates
  simp [hout]

/-- C1 (amended): a simulated deletion leaves the filesystem unchanged,
and, provided the planned duplicate paths are distinct and all present
on disk (the index is consistent with the filesystem), the set of paths
reported as deleted (simulated) is exactly the set of paths the same
call with simulate off reports as deleted and actually removes.  Without
that proviso a missing duplicate is reported as simulated-deleted but
the real run only logs an error for it. -/
theorem c1_simulate_matches_real (db : List (String × String)) (prefs : List String)
    (within : Option String) (w : World)
    (hout : w.outExists = false)
    (hnd : (plannedDeletions within (get_duplicates db prefs within)).Nodup)
    (hsub : ∀ p ∈ plannedDeletions within (get_duplicates db prefs within), p ∈ w.fs)
    (hfs : w.fs.Nodup) :
    (delete_duplicates db prefs within true false false true w).fs = w.fs ∧
    simulatedDeletedPaths
        (delete_duplicates db prefs within true false false true w).outRows =
      deletedPaths
        (delete_duplicates db prefs within true false false false w).outRows ∧
    ∀ p, p ∈ simulatedDeletedPaths
        (delete_duplicates db prefs within true false false true w).outRows ↔
      (p ∈ w.fs ∧ p ∉ (delete_duplicates db prefs within true false false false w).fs) := by
  rw [delete_duplicates_run db prefs within true w hout,
    delete_duplicates_run db prefs within false w hout]
  rw [runDeletion_sim, runDeletion_real within _ w.fs [] hsub hnd hfs]
  simp only [List.nil_append]
  refine ⟨trivial, ?_, ?_⟩
  · rw [sdp_simLog, dp_realLog]
  · intro p
    rw [sdp_simLog]
    constructor
    · intro hp
      refine ⟨hsub p hp, ?_⟩
      intro hx
      exact ((mem_removeAll w.fs _ hfs).mp hx).2 hp
    · rintro ⟨h1, h2⟩
      by_contra hpn
      exact h2 ((mem_removeAll w.fs _ hfs).mpr ⟨h1, hpn⟩)

/-- Concrete instance of the amended C1 on a consistent index: the
simulated run keeps both files and reports exactly what the real run
deletes. -/
theorem c1_simulate_matches_real_witness :
    (delete_duplicates [("h", "/a/f"), ("h", "/b/f")] [] none true false false true
      ⟨["/a/f", "/b/f"], false, []⟩).fs = ["/a/f", "/b/f"] ∧
    simulatedDeletedPaths
        (delete_duplicates [("h", "/a/f"), ("h", "/b/f")] [] none true false false true
          ⟨["/a/f", "/b/f"], false, []⟩).outRows =
      deletedPaths
        (delete_duplicates [("h", "/a/f"), ("h", "/b/f")] [] none true false false false
          ⟨["/a/f", "/b/f"], false, []⟩).outRows := by
  have h := c1_simulate_matches_real [("h", "/a/f"), ("h", "/b/f")] [] none
    ⟨["/a/f", "/b/f"], false, []⟩ rfl (by decide) (by decide) (by decide)
  exact ⟨h.1, h.2.1⟩

/-- C1 as stated is false on a stale index: for a database listing
/a/f and /b/f as duplicates while only /a/f exists on disk, the
simulated run reports /b/f as deleted (simulated), but the call with
simulate off removes nothing (it logs an error for /b/f), so the two
sets differ. -/
theorem c1_simulate_counterexample :
    simulatedDeletedPaths
        (delete_duplicates [("h", "/a/f"), ("h", "/b/f")] [] none true false false true
          ⟨["/a/f"], false, []⟩).outRows = ["/b/f"] ∧
    deletedPaths
        (delete_duplicates [("h", "/a/f"), ("h", "/b/f")] [] none true false false false
          ⟨["/a/f"], false, []⟩).outRows = [] ∧
    (delete_duplicates [("h", "/a/f"), ("h", "/b/f")] [] none true false false false
      ⟨["/a/f"], false, []⟩).fs = ["/a/f"] := by decide

end JmPyDupes
